import Mathlib

/-!
Shallow embedding of `src/main.py` (Google Next 2023 transcript scraper).

Python strings are modelled as `List Char` (a Python `str` is a sequence of
code points).  External libraries are modelled as oracle parameters:
BeautifulSoup's card lookup becomes a function `List Char → List Card`, and
`YouTubeTranscriptApi.get_transcript` becomes a function
`List Char → Option (List (List Char))` returning the `text` fields of the
caption fragments (`none` = the fetch raised).  A Python exception that
aborts the run is modelled by `Option.none` in the result type.
-/

namespace GNext

/-- Character class of Python's `str.split()` / `str.strip()` whitespace,
restricted to the ASCII range (space, tab, newline, carriage return,
vertical tab, form feed). -/
def pyIsSpace (c : Char) : Bool :=
  c == ' ' || c == '\t' || c == '\n' || c == '\r' || c == '\x0b' || c == '\x0c'

/-- Accumulator-passing core of Python's `str.split()` (no argument): split
on runs of whitespace, discarding empty fragments.  `acc` holds the current
word reversed. -/
def pySplitWs : List Char → List Char → List (List Char)
  | [], acc => if acc.isEmpty then [] else [acc.reverse]
  | c :: cs, acc =>
    if pyIsSpace c then
      if acc.isEmpty then pySplitWs cs [] else acc.reverse :: pySplitWs cs []
    else
      pySplitWs cs (c :: acc)

/-- Python's `" ".join(words)`. -/
def joinWithSpace : List (List Char) → List Char
  | [] => []
  | [w] => w
  | w :: w' :: ws => w ++ ' ' :: joinWithSpace (w' :: ws)

/-- The fetcher's whitespace normalisation, `" ".join(text.split())`
(main.py line 68). -/
def normalizeWs (s : List Char) : List Char :=
  joinWithSpace (pySplitWs s [])

/-- Python's `str.strip()`: drop leading and trailing whitespace. -/
def pyStrip (s : List Char) : List Char :=
  ((s.dropWhile pyIsSpace).reverse.dropWhile pyIsSpace).reverse

/-- Core of Python's `str.replace(pat, repl)` for a non-empty pattern
`p :: pt`: scan left to right, replacing every non-overlapping occurrence
and continuing after the replaced portion.  The `fuel` argument makes the
recursion structural; one unit is spent per scanned position and the
position advances by at least one character each step, so `fuel = s.length`
(as `replaceAll` passes) never runs out. -/
def replaceAllFuel (p : Char) (pt repl : List Char) : Nat → List Char → List Char
  | _, [] => []
  | 0, s => s
  | fuel + 1, c :: cs =>
    if c == p && pt.isPrefixOf cs then
      repl ++ replaceAllFuel p pt repl fuel (cs.drop pt.length)
    else
      c :: replaceAllFuel p pt repl fuel cs

/-- Python's `str.replace` scan for a non-empty pattern `p :: pt`. -/
def replaceAll (p : Char) (pt repl s : List Char) : List Char :=
  replaceAllFuel p pt repl s.length s

/-- Python's `text.replace(pat, repl)`; every pattern the script uses is
non-empty, so the empty-pattern case (where Python would interleave the
replacement) never arises and is modelled as the identity. -/
def pyReplace (pat repl s : List Char) : List Char :=
  match pat with
  | [] => s
  | p :: pt => replaceAll p pt repl s

/-- Host-and-path start of a recognised thumbnail URL
(`"https://i.ytimg.com/vi"`, main.py line 45). -/
def ytHost : List Char := "https://i.ytimg.com/vi".data

/-- Derivation of the video id from the `srcset` URL (main.py lines 44-46):
`link.split("/")[4] if link.startswith("https://i.ytimg.com/vi") else None`.
The outer `Option` models normal return vs. the `IndexError` Python raises
when the split has no fifth element; the inner `Option` is the Python value
(`None` when the URL is not recognised). -/
def extract_video_id (link : List Char) : Option (Option (List Char)) :=
  if ytHost.isPrefixOf link then
    match (link.splitOn '/')[4]? with
    | some seg => some (some seg)
    | none => none
  else
    some none

/-- One `span` inside the category container `p.glue-label`: its text and
whether it carries the `aria-hidden` attribute. -/
structure Span where
  text : List Char
  ariaHidden : Bool
deriving DecidableEq, Repr

/-- One content card (`div.resourceCard-content`) as the DOM lookups of
main.py lines 30-43 see it: the text of the time div, the text of the type
label span, the spans of the category container, the title text and the
`srcset` attribute of the image.  A card of this shape is well-formed in the
sense of the spec: every sub-element the extractor looks up is present. -/
structure Card where
  timeRaw : List Char
  label : List Char
  categorySpans : List Span
  title : List Char
  srcset : List Char
deriving DecidableEq, Repr

/-- Presentation record produced by the extractor (main.py lines 48-54). -/
structure Presentation where
  title : List Char
  presentation_type : List Char
  categories : List (List Char)
  video_id : Option (List Char)
  time : List Char
deriving DecidableEq, Repr

/-- Presentation record after the transcript key has been added
(main.py line 84); `transcript = none` would mean the key is absent. -/
structure EnrichedPresentation where
  title : List Char
  presentation_type : List Char
  categories : List (List Char)
  video_id : Option (List Char)
  time : List Char
  transcript : Option (List Char)
deriving DecidableEq, Repr

/-- Category extraction (main.py lines 37-41): the text of every span of
the container that does not carry the `aria-hidden` attribute, in document
order. -/
def categoriesOf (spans : List Span) : List (List Char) :=
  (spans.filter (fun s => !s.ariaHidden)).map Span.text

/-- Body of the extraction loop (main.py lines 30-54) for one card;
`none` models the uncaught `IndexError` from the video-id derivation. -/
def parseCard (card : Card) : Option Presentation :=
  (extract_video_id card.srcset).map fun vid =>
    { title := card.title
      presentation_type := card.label
      categories := categoriesOf card.categorySpans
      video_id := vid
      time := pyStrip (pyReplace "\n".data [] card.timeRaw) }

/-- The extractor `parse_html` (main.py lines 25-56).  BeautifulSoup is
external, so the function takes the list of located content cards; the
Python code overwrites each list slot with its record, i.e. maps the loop
body over the cards. -/
def parse_html (cards : List Card) : Option (List Presentation) :=
  cards.mapM parseCard

/-- The fetcher `get_transcript` (main.py lines 59-68), over an oracle
`fetch` for `YouTubeTranscriptApi.get_transcript` that returns the `text`
fields of the caption fragments, or `none` when the API raises.  The code
concatenates the fragments with `"".join` and normalises whitespace with
`" ".join(text.split())`. -/
def get_transcript (fetch : List Char → Option (List (List Char)))
    (video_id : List Char) : Option (List Char) :=
  (fetch video_id).map fun fragments => normalizeWs fragments.flatten

/-- The enrichment loop `get_presentation_transcripts` (main.py
lines 71-86): keep the presentations whose `video_id` is not `None`, then
fetch each one's transcript in order.  A raised fetch propagates, so the
whole result is `none` as soon as one fetch fails.  (The `print` of the
title is an effect on stdout and is not modelled.) -/
def get_presentation_transcripts (fetch : List Char → Option (List (List Char)))
    (presentations : List Presentation) : Option (List EnrichedPresentation) :=
  (presentations.filter (fun p => p.video_id.isSome)).mapM fun p =>
    match p.video_id with
    | some vid =>
      (get_transcript fetch vid).map fun t =>
        { title := p.title
          presentation_type := p.presentation_type
          categories := p.categories
          video_id := p.video_id
          time := p.time
          transcript := some t }
    | none => none

/-- The substitution table `unsafe_chars` (main.py lines 96-109), in
insertion order (Python dicts iterate in insertion order). -/
def unsafe_chars : List (List Char × List Char) :=
  [("тАЩ".data, "'".data),
   ("тАв".data, "-".data),
   ("тАУ".data, "-".data),
   ("тАФ".data, "-".data),
   ("┬о".data, "".data),
   ("├б".data, "a".data),
   ("тДв".data, "".data),
   ("├╢".data, "o".data),
   ("┼Н".data, "o".data),
   ("├│".data, "o".data),
   ("тАШ".data, "'".data),
   ("тАЛ".data, "".data)]

/-- The substitution pass of `sanitize_text` (main.py lines 112-113):
apply every replacement of `unsafe_chars` in mapping order. -/
def apply_substitutions (text : List Char) : List Char :=
  unsafe_chars.foldl (fun acc kv => pyReplace kv.1 kv.2 acc) text

/-- The sanitiser `sanitize_text` (main.py lines 89-118): substitute the
mapped sequences, then `assert all(ord(c) < 128 for c in text)`; `none`
models the `AssertionError`. -/
def sanitize_text (text : List Char) : Option (List Char) :=
  let t := apply_substitutions text
  if t.all (fun c => c.toNat < 128) then some t else none

/-- The runner `run` (main.py lines 121-130), over an oracle `soup` for
BeautifulSoup's card lookup and an oracle `fetch` for the transcript API.
The returned value is the content serialised to `transcripts.ndjson`;
`none` means an exception aborted the run before the single `ndjson.dump`
call, so no output file is written. -/
def run (soup : List Char → List Card)
    (fetch : List Char → Option (List (List Char)))
    (html : List Char) : Option (List EnrichedPresentation) :=
  match sanitize_text html with
  | none => none
  | some clean =>
    match parse_html (soup clean) with
    | none => none
    | some presentations => get_presentation_transcripts fetch presentations

/-- Modelled from the spec: category extraction described directly — walk
the spans in order, skip those flagged hidden, keep the text of the rest. -/
def specCategories : List Span → List (List Char)
  | [] => []
  | s :: rest => if s.ariaHidden then specCategories rest else s.text :: specCategories rest

/-- Modelled from the spec: collapse every maximal run of whitespace to a
single space character, dropping a trailing run; expects no leading
whitespace (the caller `collapseSpec` strips it first). -/
def collapseRun : List Char → List Char
  | [] => []
  | [c] => if pyIsSpace c then [] else [c]
  | c :: d :: rest =>
    if pyIsSpace c then
      if pyIsSpace d then collapseRun (d :: rest)
      else ' ' :: collapseRun (d :: rest)
    else c :: collapseRun (d :: rest)

/-- Modelled from the spec: "collapse all runs of whitespace (including the
seams between fragments) into single spaces, trimming leading/trailing
whitespace". -/
def collapseSpec (s : List Char) : List Char :=
  collapseRun (s.dropWhile pyIsSpace)

/-! ### Lemmas about the sanitiser -/

theorem replaceAllFuel_ascii_id (p : Char) (pt repl : List Char)
    (hp : 128 ≤ p.toNat) :
    ∀ (fuel : Nat) (s : List Char), (∀ c ∈ s, c.toNat < 128) →
      replaceAllFuel p pt repl fuel s = s := by
  intro fuel
  induction fuel with
  | zero =>
    intro s _
    cases s with
    | nil => rfl
    | cons c cs => rfl
  | succ fuel ih =>
    intro s h
    cases s with
    | nil => rfl
    | cons c cs =>
      have hc : c.toNat < 128 := h c (List.mem_cons_self c cs)
      have hne : (c == p) = false := by
        apply beq_false_of_ne
        intro hcp
        subst hcp
        omega
      rw [replaceAllFuel, hne]
      simp only [Bool.false_and, if_neg Bool.false_ne_true]
      rw [ih cs (fun x hx => h x (List.mem_cons_of_mem c hx))]

theorem replaceAll_ascii_id (p : Char) (pt repl : List Char) (hp : 128 ≤ p.toNat) :
    ∀ s : List Char, (∀ c ∈ s, c.toNat < 128) → replaceAll p pt repl s = s := by
  intro s h
  exact replaceAllFuel_ascii_id p pt repl hp s.length s h

theorem foldl_replace_ascii_id :
    ∀ (kvs : List (List Char × List Char)) (s : List Char),
      (∀ kv ∈ kvs, ∀ p ∈ kv.1.take 1, 128 ≤ p.toNat) →
      (∀ c ∈ s, c.toNat < 128) →
      kvs.foldl (fun acc kv => pyReplace kv.1 kv.2 acc) s = s := by
  intro kvs
  induction kvs with
  | nil => intro s _ _; rfl
  | cons kv kvs ih =>
    intro s hkeys hs
    have hstep : pyReplace kv.1 kv.2 s = s := by
      match hk : kv.1 with
      | [] => rfl
      | p :: pt =>
        have hp : 128 ≤ p.toNat := by
          have := hkeys kv (List.mem_cons_self kv kvs) p
          rw [hk] at this
          exact this (by simp)
        exact replaceAll_ascii_id p pt kv.2 hp s hs
    rw [List.foldl_cons, hstep]
    exact ih s (fun k hk => hkeys k (List.mem_cons_of_mem kv hk)) hs

theorem apply_substitutions_ascii_id (text : List Char)
    (h : ∀ c ∈ text, c.toNat < 128) : apply_substitutions text = text := by
  apply foldl_replace_ascii_id unsafe_chars text _ h
  decide

/-- C8: on input made only of 7-bit characters the sanitiser performs no
substitution, the assertion passes, and the input is returned unchanged
(hence the sanitiser is idempotent on clean ASCII text). -/
theorem sanitize_text_ascii_id (text : List Char)
    (h : ∀ c ∈ text, c.toNat < 128) : sanitize_text text = some text := by
  unfold sanitize_text
  rw [apply_substitutions_ascii_id text h]
  have hall : text.all (fun c => c.toNat < 128) = true := by
    rw [List.all_eq_true]
    intro c hc
    exact decide_eq_true (h c hc)
  simp [hall]

theorem sanitize_text_ascii_id_witness :
    (∀ c ∈ "hello".data, c.toNat < 128) ∧
      sanitize_text "hello".data = some "hello".data :=
  ⟨by decide, sanitize_text_ascii_id "hello".data (by decide)⟩

/-- C10: whenever `sanitize_text` returns normally, every character of the
result has code point below 128; the check admits non-printable ASCII such
as newline and tab, so the result is ASCII but not necessarily printable. -/
theorem sanitize_text_result_ascii :
    (∀ text r, sanitize_text text = some r → ∀ c ∈ r, c.toNat < 128) ∧
      sanitize_text "\n\t".data = some "\n\t".data := by
  constructor
  · intro text r h c hc
    unfold sanitize_text at h
    by_cases hall : (apply_substitutions text).all (fun c => c.toNat < 128) = true
    · simp only [hall, if_true, Option.some.injEq] at h
      subst h
      exact of_decide_eq_true (List.all_eq_true.mp hall c hc)
    · simp [hall] at h
  · decide

theorem sanitize_text_result_ascii_witness : ('\n').toNat < 128 :=
  sanitize_text_result_ascii.1 "\n\t".data "\n\t".data
    sanitize_text_result_ascii.2 '\n' (by decide)

/-- C6 (counterexample): on the input consisting of a single newline the
substitutions change nothing, the remaining character is outside the 7-bit
printable range (code points 32..126), yet the assertion does not fire —
`sanitize_text` returns normally.  So the assertion does not check
printability, only the 7-bit bound. -/
theorem sanitize_text_printable_cx :
    sanitize_text ['\n'] = some ['\n'] ∧
      ¬(32 ≤ ('\n').toNat ∧ ('\n').toNat ≤ 126) := by
  constructor
  · decide
  · decide

/-- C6 (amended): after performing its substitutions, `sanitize_text` fails
with an assertion error if and only if some character with code point at
least 128 (outside the 7-bit range, printable or not) remains after
substitution. -/
theorem sanitize_text_assert_iff :
    ∀ text, sanitize_text text = none ↔
      ∃ c ∈ apply_substitutions text, 128 ≤ c.toNat := by
  intro text
  unfold sanitize_text
  by_cases hall : (apply_substitutions text).all (fun c => c.toNat < 128) = true
  · simp only [hall, if_true]
    constructor
    · intro h; exact absurd h (by simp)
    · rintro ⟨c, hc, hge⟩
      have := of_decide_eq_true (List.all_eq_true.mp hall c hc)
      omega
  · simp only [hall, if_false]
    constructor
    · intro _
      rcases List.all_eq_false.mp (Bool.eq_false_iff.mpr hall) with ⟨c, hc, hlt⟩
      exact ⟨c, hc, by simpa using hlt⟩
    · intro _; rfl

theorem sanitize_text_assert_iff_witness : sanitize_text "é".data = none :=
  (sanitize_text_assert_iff "é".data).mpr ⟨'é', by decide, by decide⟩

/-! ### Lemmas about the extractor -/

/-- C2: a srcset URL beginning with `https://i.ytimg.com/vi` yields the
fifth slash-separated segment of the URL as video id (in particular
`ABC123` for `https://i.ytimg.com/vi/ABC123/default.jpg`), and a URL not
beginning with that host start yields no id (`None`). -/
theorem extract_video_id_spec :
    (∀ link seg, ytHost.isPrefixOf link = true →
        (link.splitOn '/')[4]? = some seg →
        extract_video_id link = some (some seg)) ∧
    extract_video_id "https://i.ytimg.com/vi/ABC123/default.jpg".data
      = some (some "ABC123".data) ∧
    (∀ link, ytHost.isPrefixOf link = false →
        extract_video_id link = some none) := by
  refine ⟨?_, by decide, ?_⟩
  · intro link seg hpre hseg
    unfold extract_video_id
    rw [if_pos hpre, hseg]
  · intro link hpre
    unfold extract_video_id
    rw [if_neg (by simp [hpre])]

theorem extract_video_id_spec_witness :
    extract_video_id "https://i.ytimg.com/vi/dQw4/x.jpg".data
      = some (some "dQw4".data) :=
  extract_video_id_spec.1 "https://i.ytimg.com/vi/dQw4/x.jpg".data
    "dQw4".data (by decide) (by decide)

/-- C7: the extracted category list is exactly the text of the spans not
carrying the `aria-hidden` attribute, in the order of the source markup
(it is a sublist of the full span-text list, so relative order is
preserved). -/
theorem categoriesOf_hidden_order :
    ∀ spans : List Span, categoriesOf spans = specCategories spans ∧
      (categoriesOf spans).Sublist (spans.map Span.text) := by
  intro spans
  constructor
  · induction spans with
    | nil => rfl
    | cons s rest ih =>
      cases hs : s.ariaHidden with
      | true => simp [categoriesOf, specCategories, hs] at ih ⊢; exact ih
      | false => simp [categoriesOf, specCategories, hs] at ih ⊢; exact ih
  · exact List.Sublist.map Span.text (List.filter_sublist spans)

/-! ### Lemmas about mapping a fallible step over a list (the two loops) -/

theorem mapM_option_total {α β : Type} (f : α → Option β) :
    ∀ l : List α, (∀ a ∈ l, (f a).isSome) →
      ∃ r : List β, l.mapM f = some r ∧ r.length = l.length ∧
        ∀ i (hl : i < l.length) (hr : i < r.length),
          f (l.get ⟨i, hl⟩) = some (r.get ⟨i, hr⟩) := by
  intro l
  induction l with
  | nil =>
    intro _
    exact ⟨[], rfl, rfl, fun i hl _ => absurd hl (Nat.not_lt_zero i)⟩
  | cons a l ih =>
    intro h
    obtain ⟨b, hb⟩ := Option.isSome_iff_exists.mp (h a (List.mem_cons_self a l))
    obtain ⟨r, hr, hlen, hidx⟩ := ih (fun x hx => h x (List.mem_cons_of_mem a hx))
    refine ⟨b :: r, ?_, by simp [hlen], ?_⟩
    · rw [List.mapM_cons, hb, hr]
      rfl
    · intro i hl hr'
      match i with
      | 0 => exact hb
      | i + 1 =>
        exact hidx i (Nat.lt_of_succ_lt_succ hl) (Nat.lt_of_succ_lt_succ hr')

theorem mapM_option_none {α β : Type} (f : α → Option β) :
    ∀ l : List α, ∀ a ∈ l, f a = none → l.mapM f = none := by
  intro l
  induction l with
  | nil => intro a ha; exact absurd ha (List.not_mem_nil a)
  | cons b l ih =>
    intro a ha hfa
    rcases List.mem_cons.mp ha with h | h
    · subst h
      rw [List.mapM_cons, hfa]
      rfl
    · rw [List.mapM_cons]
      cases hfb : f b with
      | none => rfl
      | some v => rw [ih a h hfa]; rfl

theorem mapM_option_mem {α β : Type} (f : α → Option β) :
    ∀ (l : List α) (r : List β), l.mapM f = some r →
      ∀ b ∈ r, ∃ a ∈ l, f a = some b := by
  intro l
  induction l with
  | nil =>
    intro r hr b hb
    simp only [List.mapM_nil, Option.pure_def, Option.some.injEq] at hr
    subst hr
    exact absurd hb (List.not_mem_nil b)
  | cons a l ih =>
    intro r hr b hb
    rw [List.mapM_cons] at hr
    cases hfa : f a with
    | none => rw [hfa] at hr; exact absurd hr (by simp)
    | some v =>
      rw [hfa] at hr
      cases hrest : l.mapM f with
      | none => rw [hrest] at hr; exact absurd hr (by simp)
      | some r' =>
        rw [hrest] at hr
        simp at hr
        subst hr
        rcases List.mem_cons.mp hb with h | h
        · exact ⟨a, List.mem_cons_self a l, by rw [hfa, h]⟩
        · obtain ⟨x, hx, hfx⟩ := ih r' hrest b h
          exact ⟨x, List.mem_cons_of_mem a hx, hfx⟩

/-! ### The extractor over a list of cards -/

/-- Well-formedness of a card's thumbnail URL: if it begins with the
recognised host start, it has at least five slash-separated segments, so
the fifth exists (otherwise the Python code raises `IndexError` instead of
producing a record). -/
def srcsetWellFormed (link : List Char) : Prop :=
  ytHost.isPrefixOf link = true → 5 ≤ (link.splitOn '/').length

instance (link : List Char) : Decidable (srcsetWellFormed link) := by
  unfold srcsetWellFormed
  infer_instance

theorem parseCard_total (card : Card) (h : srcsetWellFormed card.srcset) :
    ∃ pr, parseCard card = some pr ∧
      pr.video_id.isSome = ytHost.isPrefixOf card.srcset := by
  unfold parseCard extract_video_id
  by_cases hpre : ytHost.isPrefixOf card.srcset = true
  · obtain ⟨seg, hseg⟩ : ∃ seg, (card.srcset.splitOn '/')[4]? = some seg := by
      have hlen : 4 < (card.srcset.splitOn '/').length := h hpre
      exact ⟨_, List.getElem?_eq_getElem hlen⟩
    rw [hpre, if_pos rfl, hseg]
    exact ⟨_, rfl, by simp [hpre]⟩
  · rw [if_neg hpre]
    exact ⟨_, rfl, by simp [Bool.eq_false_iff.mpr hpre]⟩

/-- C1: on a list of well-formed cards the extractor returns exactly one
record per card (same count, i-th record from the i-th card, every base
field filled by `parseCard`), and the i-th record's `video_id` is non-null
exactly when the i-th card's `srcset` begins with the recognised host
start. -/
theorem parse_html_records (cards : List Card)
    (hwf : ∀ card ∈ cards, srcsetWellFormed card.srcset) :
    ∃ ps, parse_html cards = some ps ∧ ps.length = cards.length ∧
      ∀ i (hc : i < cards.length) (hp : i < ps.length),
        parseCard (cards.get ⟨i, hc⟩) = some (ps.get ⟨i, hp⟩) ∧
        (ps.get ⟨i, hp⟩).video_id.isSome
          = ytHost.isPrefixOf (cards.get ⟨i, hc⟩).srcset := by
  have htot : ∀ card ∈ cards, (parseCard card).isSome := by
    intro card hcard
    obtain ⟨pr, hpr, _⟩ := parseCard_total card (hwf card hcard)
    rw [hpr]
    rfl
  obtain ⟨ps, hps, hlen, hidx⟩ := mapM_option_total parseCard cards htot
  refine ⟨ps, hps, hlen, ?_⟩
  intro i hc hp
  refine ⟨hidx i hc hp, ?_⟩
  obtain ⟨pr, hpr, hvid⟩ :=
    parseCard_total (cards.get ⟨i, hc⟩) (hwf _ (List.get_mem cards i hc))
  have : pr = ps.get ⟨i, hp⟩ := by
    have := hidx i hc hp
    rw [hpr] at this
    exact Option.some.inj this
  rw [← this]
  exact hvid

theorem parse_html_records_witness :
    (∀ card ∈ [Card.mk " 9 AM ".data "Keynote".data
        [Span.mk "AI".data false] "T1".data
        "https://i.ytimg.com/vi/XYZ/default.jpg".data,
      Card.mk "10".data "Session".data [] "T2".data
        "https://example.com/a.png".data],
      srcsetWellFormed card.srcset) ∧
    (∃ ps, parse_html [Card.mk " 9 AM ".data "Keynote".data
        [Span.mk "AI".data false] "T1".data
        "https://i.ytimg.com/vi/XYZ/default.jpg".data,
      Card.mk "10".data "Session".data [] "T2".data
        "https://example.com/a.png".data] = some ps ∧
      ps.length = 2 ∧
      ∀ i (hc : i < 2) (hp : i < ps.length),
        parseCard (([Card.mk " 9 AM ".data "Keynote".data
            [Span.mk "AI".data false] "T1".data
            "https://i.ytimg.com/vi/XYZ/default.jpg".data,
          Card.mk "10".data "Session".data [] "T2".data
            "https://example.com/a.png".data] : List Card).get ⟨i, hc⟩)
          = some (ps.get ⟨i, hp⟩) ∧
        (ps.get ⟨i, hp⟩).video_id.isSome
          = ytHost.isPrefixOf (([Card.mk " 9 AM ".data "Keynote".data
              [Span.mk "AI".data false] "T1".data
              "https://i.ytimg.com/vi/XYZ/default.jpg".data,
            Card.mk "10".data "Session".data [] "T2".data
              "https://example.com/a.png".data] : List Card).get
                ⟨i, hc⟩).srcset) :=
  ⟨by decide, parse_html_records _ (by decide)⟩

/-! ### The enrichment loop and the runner -/

/-- C3: whenever the enrichment loop returns (no fetch raised), every
record of the result has a non-null `video_id` and a non-null `transcript`;
presentations whose `video_id` is `None` were filtered out before the loop,
so no record with a null field is emitted. -/
theorem get_presentation_transcripts_nonnull
    (fetch : List Char → Option (List (List Char)))
    (presentations : List Presentation) (result : List EnrichedPresentation)
    (h : get_presentation_transcripts fetch presentations = some result) :
    ∀ r ∈ result, r.video_id ≠ none ∧ r.transcript ≠ none := by
  intro r hr
  unfold get_presentation_transcripts at h
  obtain ⟨p, _, hp⟩ := mapM_option_mem _ _ result h r hr
  cases hvid : p.video_id with
  | none => rw [hvid] at hp; exact absurd hp (by simp)
  | some vid =>
    rw [hvid] at hp
    cases ht : get_transcript fetch vid with
    | none =>
      simp only [ht] at hp
      exact absurd hp (by simp)
    | some t =>
      simp only [ht] at hp
      have hr' : EnrichedPresentation.mk p.title p.presentation_type
          p.categories (some vid) p.time (some t) = r := Option.some.inj hp
      rw [← hr']
      exact ⟨by simp, by simp⟩

theorem get_presentation_transcripts_nonnull_witness :
    (EnrichedPresentation.mk "T".data "K".data [] (some "XYZ".data) "9".data
        (some "Hello world".data)).video_id ≠ none ∧
    (EnrichedPresentation.mk "T".data "K".data [] (some "XYZ".data) "9".data
        (some "Hello world".data)).transcript ≠ none :=
  get_presentation_transcripts_nonnull
    (fun _ => some ["Hello ".data, " world".data])
    [Presentation.mk "T".data "K".data [] (some "XYZ".data) "9".data]
    [EnrichedPresentation.mk "T".data "K".data [] (some "XYZ".data) "9".data
      (some "Hello world".data)]
    (by decide) _ (List.mem_singleton.mpr rfl)

/-- C5: if the pipeline reaches the fetch loop and some filtered record's
fetch raises, the whole run aborts and nothing is serialised: `run`
produces no output content, because the single `ndjson.dump` call sits
after the complete loop. -/
theorem run_no_output_on_fetch_failure
    (soup : List Char → List Card)
    (fetch : List Char → Option (List (List Char)))
    (html clean : List Char) (presentations : List Presentation)
    (p : Presentation) (vid : List Char)
    (hsan : sanitize_text html = some clean)
    (hparse : parse_html (soup clean) = some presentations)
    (hp : p ∈ presentations) (hvid : p.video_id = some vid)
    (hfail : fetch vid = none) :
    run soup fetch html = none := by
  unfold run
  rw [hsan]
  show (match parse_html (soup clean) with
    | none => none
    | some presentations => get_presentation_transcripts fetch presentations)
      = none
  rw [hparse]
  show get_presentation_transcripts fetch presentations = none
  unfold get_presentation_transcripts
  apply mapM_option_none _ _ p
  · exact List.mem_filter.mpr ⟨hp, by simp [hvid]⟩
  · rw [hvid]
    simp [get_transcript, hfail]

theorem run_no_output_on_fetch_failure_witness :
    run (fun _ => [Card.mk [] [] [] []
        "https://i.ytimg.com/vi/X/d.jpg".data])
      (fun _ => none) "x".data = none :=
  run_no_output_on_fetch_failure
    (fun _ => [Card.mk [] [] [] [] "https://i.ytimg.com/vi/X/d.jpg".data])
    (fun _ => none) "x".data "x".data
    [Presentation.mk [] [] [] (some ['X']) []]
    (Presentation.mk [] [] [] (some ['X']) []) ['X']
    (by decide) (by decide) (List.mem_singleton.mpr rfl) rfl rfl

/-! ### Lemmas about the whitespace normalisation -/

theorem pySplitWs_words_clean :
    ∀ (s acc : List Char), (∀ c ∈ acc, pyIsSpace c = false) →
      ∀ w ∈ pySplitWs s acc, w ≠ [] ∧ ∀ c ∈ w, pyIsSpace c = false := by
  intro s
  induction s with
  | nil =>
    intro acc hacc w hw
    rw [pySplitWs] at hw
    by_cases hemp : acc.isEmpty = true
    · rw [if_pos hemp] at hw
      exact absurd hw (List.not_mem_nil w)
    · rw [if_neg hemp] at hw
      have hne : acc ≠ [] := fun h => hemp (List.isEmpty_iff.mpr h)
      have hw' : w = acc.reverse := List.mem_singleton.mp hw
      subst hw'
      refine ⟨by simp [hne], ?_⟩
      intro c hc
      exact hacc c (List.mem_reverse.mp hc)
  | cons c cs ih =>
    intro acc hacc w hw
    rw [pySplitWs] at hw
    by_cases hsp : pyIsSpace c = true
    · rw [if_pos hsp] at hw
      by_cases hemp : acc.isEmpty = true
      · rw [if_pos hemp] at hw
        exact ih [] (fun x hx => absurd hx (List.not_mem_nil x)) w hw
      · rw [if_neg hemp] at hw
        have hne : acc ≠ [] := fun h => hemp (List.isEmpty_iff.mpr h)
        rcases List.mem_cons.mp hw with h | h
        · subst h
          refine ⟨by simp [hne], ?_⟩
          intro x hx
          exact hacc x (List.mem_reverse.mp hx)
        · exact ih [] (fun x hx => absurd hx (List.not_mem_nil x)) w h
    · rw [if_neg hsp] at hw
      refine ih (c :: acc) ?_ w hw
      intro x hx
      rcases List.mem_cons.mp hx with h | h
      · subst h
        exact Bool.eq_false_iff.mpr hsp
      · exact hacc x h

theorem pySplitWs_append_word :
    ∀ (w : List Char), (∀ c ∈ w, pyIsSpace c = false) →
      ∀ (t acc : List Char),
        pySplitWs (w ++ t) acc = pySplitWs t (w.reverse ++ acc) := by
  intro w
  induction w with
  | nil => intro _ t acc; simp
  | cons c w' ih =>
    intro h t acc
    have hc : pyIsSpace c = false := h c (List.mem_cons_self c w')
    rw [List.cons_append, pySplitWs,
      if_neg (show ¬pyIsSpace c = true by simp [hc]),
      ih (fun x hx => h x (List.mem_cons_of_mem c hx)) t (c :: acc)]
    congr 1
    simp

theorem pySplitWs_joinWithSpace :
    ∀ ws : List (List Char),
      (∀ w ∈ ws, w ≠ [] ∧ ∀ c ∈ w, pyIsSpace c = false) →
      pySplitWs (joinWithSpace ws) [] = ws := by
  intro ws
  induction ws with
  | nil => intro _; rfl
  | cons w ws ih =>
    intro h
    obtain ⟨hw, hwc⟩ := h w (List.mem_cons_self w ws)
    cases ws with
    | nil =>
      show pySplitWs w [] = [w]
      have hsplit := pySplitWs_append_word w hwc [] []
      rw [List.append_nil] at hsplit
      rw [hsplit, pySplitWs]
      simp [List.isEmpty_iff, hw]
    | cons w' rest =>
      show pySplitWs (w ++ ' ' :: joinWithSpace (w' :: rest)) [] = w :: w' :: rest
      rw [pySplitWs_append_word w hwc, List.append_nil, pySplitWs,
        if_pos (show pyIsSpace ' ' = true from rfl),
        if_neg (show ¬(w.reverse).isEmpty = true by simp [List.isEmpty_iff, hw]),
        List.reverse_reverse]
      congr 1
      exact ih (fun x hx => h x (List.mem_cons_of_mem w hx))

/-- C9: the fetcher's whitespace normalisation
`" ".join(text.split())` is idempotent — applied to its own output it
returns the output unchanged. -/
theorem normalizeWs_idem : ∀ s : List Char,
    normalizeWs (normalizeWs s) = normalizeWs s := by
  intro s
  unfold normalizeWs
  rw [pySplitWs_joinWithSpace (pySplitWs s [])
    (pySplitWs_words_clean s [] (fun c hc => absurd hc (List.not_mem_nil c)))]

theorem collapseRun_append_word :
    ∀ (w : List Char), w ≠ [] → (∀ c ∈ w, pyIsSpace c = false) →
      ∀ t, collapseRun (w ++ t) = w ++ collapseRun t := by
  intro w
  induction w with
  | nil => intro h; exact absurd rfl h
  | cons c w' ih =>
    intro _ hclean t
    have hc : pyIsSpace c = false := hclean c (List.mem_cons_self c w')
    cases w' with
    | nil =>
      cases t with
      | nil =>
        show collapseRun [c] = [c] ++ collapseRun []
        simp [collapseRun, hc]
      | cons d r =>
        show collapseRun (c :: d :: r) = [c] ++ collapseRun (d :: r)
        simp [collapseRun, hc]
    | cons c' w'' =>
      show collapseRun (c :: c' :: (w'' ++ t)) = (c :: c' :: w'') ++ collapseRun t
      have hrec := ih (by simp) (fun x hx => hclean x (List.mem_cons_of_mem c hx)) t
      rw [show (c' :: w'') ++ t = c' :: (w'' ++ t) from rfl] at hrec
      simp [collapseRun, hc, hrec]

theorem pySplitWs_ne_nil :
    ∀ (s acc : List Char), acc ≠ [] → pySplitWs s acc ≠ [] := by
  intro s
  induction s with
  | nil =>
    intro acc hacc
    rw [pySplitWs, if_neg (show ¬acc.isEmpty = true by simp [List.isEmpty_iff, hacc])]
    simp
  | cons c cs ih =>
    intro acc hacc
    rw [pySplitWs]
    by_cases hsp : pyIsSpace c = true
    · rw [if_pos hsp,
        if_neg (show ¬acc.isEmpty = true by simp [List.isEmpty_iff, hacc])]
      simp
    · rw [if_neg hsp]
      exact ih (c :: acc) (by simp)

theorem pySplitWs_space_cons (c : Char) (cs : List Char)
    (h : pyIsSpace c = true) : pySplitWs (c :: cs) [] = pySplitWs cs [] := by
  rw [pySplitWs, if_pos h]
  rfl

theorem dropWhile_eq_cons_head (p : Char → Bool) :
    ∀ (l : List Char) (d : Char) (r : List Char),
      l.dropWhile p = d :: r → p d = false := by
  intro l
  induction l with
  | nil => intro d r h; exact absurd h (by simp)
  | cons c cs ih =>
    intro d r h
    rw [List.dropWhile_cons] at h
    by_cases hp : p c = true
    · rw [if_pos hp] at h
      exact ih d r h
    · rw [if_neg hp] at h
      injection h with h1 _
      subst h1
      exact Bool.eq_false_iff.mpr hp

theorem collapseRun_space_cons :
    ∀ (u : List Char) (d : Char), pyIsSpace d = true →
      collapseRun (d :: u)
        = if pySplitWs u [] = [] then []
          else ' ' :: collapseRun (u.dropWhile pyIsSpace) := by
  intro u
  induction u with
  | nil =>
    intro d hd
    rw [collapseRun, if_pos hd]
    rfl
  | cons e r ih =>
    intro d hd
    by_cases he : pyIsSpace e = true
    · rw [collapseRun, if_pos hd, if_pos he, ih e he,
        pySplitWs_space_cons e r he, List.dropWhile_cons_of_pos he]
    · have he' : pyIsSpace e = false := Bool.eq_false_iff.mpr he
      rw [collapseRun, if_pos hd, if_neg he]
      have hne : pySplitWs (e :: r) [] ≠ [] := by
        rw [pySplitWs, if_neg he]
        exact pySplitWs_ne_nil r [e] (by simp)
      rw [if_neg hne, List.dropWhile_cons_of_neg he]

theorem collapseRun_eq_join :
    ∀ (n : Nat) (s : List Char), s.length ≤ n →
      collapseRun (s.dropWhile pyIsSpace) = joinWithSpace (pySplitWs s []) := by
  intro n
  induction n with
  | zero =>
    intro s hs
    have hnil : s = [] := List.eq_nil_of_length_eq_zero (Nat.le_zero.mp hs)
    subst hnil
    rfl
  | succ n ih =>
    intro s hs
    cases s with
    | nil => rfl
    | cons c cs =>
      by_cases hsp : pyIsSpace c = true
      · rw [List.dropWhile_cons_of_pos hsp, pySplitWs_space_cons c cs hsp]
        exact ih cs (by simpa using Nat.le_of_succ_le_succ (by simpa using hs))
      · have hc : pyIsSpace c = false := Bool.eq_false_iff.mpr hsp
        obtain ⟨tW, htW⟩ :
            ∃ tW, (c :: cs).takeWhile (fun x => !pyIsSpace x) = tW := ⟨_, rfl⟩
        obtain ⟨dW, hdW⟩ :
            ∃ dW, (c :: cs).dropWhile (fun x => !pyIsSpace x) = dW := ⟨_, rfl⟩
        have hwt : tW ++ dW = c :: cs := by
          rw [← htW, ← hdW]
          exact List.takeWhile_append_dropWhile _ _
        have hwne : tW ≠ [] := by
          rw [← htW, List.takeWhile_cons_of_pos (by simp [hc])]
          simp
        have hwclean : ∀ x ∈ tW, pyIsSpace x = false := by
          intro x hx
          rw [← htW] at hx
          simpa using List.mem_takeWhile_imp hx
        rw [List.dropWhile_cons_of_neg (by simp [hc]), ← hwt,
          collapseRun_append_word tW hwne hwclean dW,
          pySplitWs_append_word tW hwclean dW [], List.append_nil]
        cases hd : dW with
        | nil =>
          rw [pySplitWs,
            if_neg (show ¬(tW.reverse).isEmpty = true by
              simp [List.isEmpty_iff, hwne]),
            List.reverse_reverse]
          show tW ++ collapseRun [] = joinWithSpace [tW]
          rw [show collapseRun [] = [] from rfl, List.append_nil]
          rfl
        | cons d t' =>
          have hdsp : pyIsSpace d = true := by
            have h6 := dropWhile_eq_cons_head (fun x => !pyIsSpace x)
              (c :: cs) d t' (by rw [hdW, hd])
            simpa using h6
          rw [pySplitWs, if_pos hdsp,
            if_neg (show ¬(tW.reverse).isEmpty = true by
              simp [List.isEmpty_iff, hwne]),
            List.reverse_reverse, collapseRun_space_cons t' d hdsp]
          have hlental : t'.length ≤ n := by
            have h1 : tW.length + dW.length = cs.length + 1 := by
              have := congrArg List.length hwt
              simpa using this
            have h2 : dW.length = t'.length + 1 := by rw [hd]; simp
            have h3 : 1 ≤ tW.length := List.length_pos.mpr hwne
            have h4 : cs.length + 1 ≤ n + 1 := by simpa using hs
            omega
          cases hsplit : pySplitWs t' [] with
          | nil =>
            rw [if_pos rfl]
            show tW ++ [] = joinWithSpace [tW]
            rw [List.append_nil]
            rfl
          | cons x xs =>
            rw [if_neg (by simp), ih t' hlental, hsplit, joinWithSpace]

/-- The code's normalisation `" ".join(text.split())` computes exactly the
spec's description: collapse every maximal whitespace run to a single space
and trim the ends. -/
theorem collapseSpec_eq_normalizeWs : ∀ s, collapseSpec s = normalizeWs s := by
  intro s
  unfold collapseSpec normalizeWs
  exact collapseRun_eq_join s.length s le_rfl

/-- C4: when the caption fetch succeeds, `get_transcript` returns the
fragments' texts concatenated with no separator and then normalised as the
spec describes: whitespace runs (seams included) collapsed to single
spaces, leading and trailing whitespace removed. -/
theorem get_transcript_collapse
    (fetch : List Char → Option (List (List Char)))
    (video_id : List Char) (fragments : List (List Char))
    (h : fetch video_id = some fragments) :
    get_transcript fetch video_id = some (collapseSpec fragments.flatten) := by
  unfold get_transcript
  rw [h]
  show some (normalizeWs fragments.flatten) = some (collapseSpec fragments.flatten)
  rw [collapseSpec_eq_normalizeWs]

theorem get_transcript_collapse_witness :
    get_transcript (fun _ => some ["Hello\n".data, " world ".data]) "v".data
      = some (collapseSpec
          (["Hello\n".data, " world ".data] : List (List Char)).flatten) :=
  get_transcript_collapse (fun _ => some ["Hello\n".data, " world ".data])
    "v".data ["Hello\n".data, " world ".data] rfl

end GNext
